import Mathlib

/-!
# Verification of the awgen voxel-map core

Shallow embedding of the repository's voxel-chunk storage, occlusion engine,
remesh scheduler, mesh-buffer finalization and voxel raycast, together with
proofs of the spec's testable properties.

Machine integers are modelled as `ℤ`/`ℕ` with explicit wrapping where the
source relies on it; `f32` arithmetic in the raycast is modelled exactly over
`ℚ` (extended with `⊤` for the infinities that the DDA produces by dividing by
zero).  Entities (`bevy::Entity`) are opaque identifiers, modelled as `ℕ`.
-/

/-- `CHUNK_BITS` from `src/math/pos.rs`: bits per chunk coordinate axis. -/
def CHUNK_BITS : ℕ := 4

/-- `CHUNK_SIZE` from `src/math/pos.rs`: chunk edge length, `1 << CHUNK_BITS`. -/
def CHUNK_SIZE : ℕ := 1 <<< CHUNK_BITS

/-- `TOTAL_BLOCKS` from `src/math/pos.rs`: blocks per chunk. -/
def TOTAL_BLOCKS : ℕ := CHUNK_SIZE * CHUNK_SIZE * CHUNK_SIZE

/-- A bevy `Entity`, used by the map as an opaque block/chunk identifier. -/
abbrev Entity := ℕ

/-- `BlockPos` from `src/math/pos.rs`: signed block position in world space.
The `i32` coordinates are modelled as `ℤ`; every operation below that the
source performs on `i32` is either wrap-insensitive on the claims' domain or
explicitly reduced modulo a power of two, matching two's-complement casts. -/
structure BlockPos where
  x : ℤ
  y : ℤ
  z : ℤ
deriving DecidableEq, Repr

/-- `ChunkPos` from `src/math/pos.rs`: signed chunk position. -/
structure ChunkPos where
  x : ℤ
  y : ℤ
  z : ℤ
deriving DecidableEq, Repr

/-- `ChunkPos::new`. -/
def ChunkPos.new (x y z : ℤ) : ChunkPos := ⟨x, y, z⟩

/-- `BlockPos::new`. -/
def BlockPos.new (x y z : ℤ) : BlockPos := ⟨x, y, z⟩

/-- `BlockPos::index` from `src/math/pos.rs`: local index within the chunk.
The source computes `(coord as usize) & (CHUNK_SIZE - 1)` per axis; since the
`i32 → usize` cast preserves the value modulo `2^64` and `CHUNK_SIZE` divides
`2^64`, the masked value equals the coordinate modulo `CHUNK_SIZE`, which is
how it is written here (`Int.emod` is non-negative for a positive modulus). -/
def BlockPos.index (p : BlockPos) : ℕ :=
  (p.x % (CHUNK_SIZE : ℤ)).toNat
    + (p.y % (CHUNK_SIZE : ℤ)).toNat * CHUNK_SIZE
    + (p.z % (CHUNK_SIZE : ℤ)).toNat * CHUNK_SIZE * CHUNK_SIZE

lemma coord_mod_lt (a : ℤ) : (a % (CHUNK_SIZE : ℤ)).toNat < CHUNK_SIZE := by
  have hpos : (0 : ℤ) < (CHUNK_SIZE : ℤ) := by decide
  have h1 : 0 ≤ a % (CHUNK_SIZE : ℤ) := Int.emod_nonneg a (by decide)
  have h2 : a % (CHUNK_SIZE : ℤ) < (CHUNK_SIZE : ℤ) := Int.emod_lt_of_pos a hpos
  omega

/-- The local index is always in range, for arbitrary (also negative)
coordinates. -/
lemma BlockPos.index_lt (p : BlockPos) : p.index < TOTAL_BLOCKS := by
  have hx := coord_mod_lt p.x
  have hy := coord_mod_lt p.y
  have hz := coord_mod_lt p.z
  unfold BlockPos.index TOTAL_BLOCKS
  have hs : CHUNK_SIZE = 16 := by decide
  rw [hs] at hx hy hz ⊢
  omega

/-- The local index of `p`, as `Fin TOTAL_BLOCKS`. -/
def BlockPos.indexFin (p : BlockPos) : Fin TOTAL_BLOCKS :=
  ⟨p.index, p.index_lt⟩

/-- `BlockPos::is_in_bounds` from `src/math/pos.rs`: whether this block
position lies inside the given chunk.  The source's `min` corner is
`chunk << CHUNK_BITS` per axis, written here as multiplication by
`CHUNK_SIZE`, and `max = min + CHUNK_SIZE`; the checks are
`min ≤ coord < max` per axis. -/
def BlockPos.is_in_bounds (p : BlockPos) (chunk : ChunkPos) : Prop :=
  chunk.x * (CHUNK_SIZE : ℤ) ≤ p.x
  ∧ p.x < chunk.x * (CHUNK_SIZE : ℤ) + (CHUNK_SIZE : ℤ)
  ∧ chunk.y * (CHUNK_SIZE : ℤ) ≤ p.y
  ∧ p.y < chunk.y * (CHUNK_SIZE : ℤ) + (CHUNK_SIZE : ℤ)
  ∧ chunk.z * (CHUNK_SIZE : ℤ) ≤ p.z
  ∧ p.z < chunk.z * (CHUNK_SIZE : ℤ) + (CHUNK_SIZE : ℤ)

instance (p : BlockPos) (c : ChunkPos) : Decidable (p.is_in_bounds c) := by
  unfold BlockPos.is_in_bounds; infer_instance

/-- `BlockPos::index_no_wrap` from `src/math/pos.rs`: the local index when the
position lies inside the origin chunk, `none` otherwise.  The source returns
`Option<usize>`; the in-range proof is packaged into the `Fin`. -/
def BlockPos.index_no_wrap (p : BlockPos) : Option (Fin TOTAL_BLOCKS) :=
  if p.is_in_bounds (ChunkPos.new 0 0 0) then some p.indexFin else none

/-- `ChunkData` from `src/map/chunk.rs`: block storage with a uniform-value
compression fast path.  The boxed array `[Entity; TOTAL_BLOCKS]` is modelled
as a function out of `Fin TOTAL_BLOCKS`. -/
inductive ChunkData where
  | Single (block : Entity)
  | Multiple (blocks : Fin TOTAL_BLOCKS → Entity)

/-- `ChunkData::fill`. -/
def ChunkData.fill (block : Entity) : ChunkData := .Single block

/-- `ChunkData::get`. -/
def ChunkData.get (c : ChunkData) (pos : BlockPos) : Entity :=
  match c with
  | .Single block => block
  | .Multiple blocks => blocks pos.indexFin

/-- `ChunkData::get_index`. -/
def ChunkData.get_index (c : ChunkData) (i : Fin TOTAL_BLOCKS) : Entity :=
  match c with
  | .Single block => block
  | .Multiple blocks => blocks i

/-- `ChunkData::set`: `&mut self` plus the returned `bool` become a pair.
Returns the updated chunk and whether the stored value changed. -/
def ChunkData.set (c : ChunkData) (pos : BlockPos) (block : Entity) :
    ChunkData × Bool :=
  if c.get pos = block then (c, false)
  else
    match c with
    | .Single old_block =>
        (.Multiple (Function.update (fun _ => old_block) pos.indexFin block),
          true)
    | .Multiple blocks =>
        (.Multiple (Function.update blocks pos.indexFin block), true)

/-- `ChunkData::try_convert_to_single`: demotes a `Multiple` chunk whose slots
are all equal to `Single`; a no-op returning `false` otherwise (including when
the chunk is already `Single`). -/
def ChunkData.try_convert_to_single (c : ChunkData) : ChunkData × Bool :=
  match c with
  | .Multiple blocks =>
      if ∀ i, blocks i = blocks ⟨0, by decide⟩ then
        (.Single (blocks ⟨0, by decide⟩), true)
      else (c, false)
  | .Single block => (.Single block, false)

example : (ChunkData.fill 3).get (BlockPos.new 5 (-2) 7) = 3 := rfl
example : ((ChunkData.fill 3).set (BlockPos.new 1 2 3) 4).2 = true := by decide
example : ((ChunkData.fill 3).set (BlockPos.new 1 2 3) 3).2 = false := by decide

/-! ## ChunkData lemmas -/

lemma ChunkData.get_set_self (c : ChunkData) (p : BlockPos) (b : Entity) :
    ((c.set p b).1).get p = b := by
  unfold ChunkData.set
  by_cases h : c.get p = b
  · simp [h]
  · cases c with
    | Single old =>
        simp only [ChunkData.get] at h
        simp [h, ChunkData.get]
    | Multiple blocks =>
        simp only [ChunkData.get] at h
        simp [h, ChunkData.get]

lemma ChunkData.set_snd_iff (c : ChunkData) (p : BlockPos) (b : Entity) :
    (c.set p b).2 = true ↔ c.get p ≠ b := by
  unfold ChunkData.set
  by_cases h : c.get p = b
  · simp [h]
  · cases c with
    | Single old => simp [h]
    | Multiple blocks => simp [h]

lemma ChunkData.set_noop (c : ChunkData) (p : BlockPos) (b : Entity)
    (h : c.get p = b) : c.set p b = (c, false) := by
  unfold ChunkData.set
  simp [h]

lemma ChunkData.get_index_set_ne (c : ChunkData) (p : BlockPos) (b : Entity)
    (j : Fin TOTAL_BLOCKS) (hj : j ≠ p.indexFin) :
    ((c.set p b).1).get_index j = c.get_index j := by
  unfold ChunkData.set
  by_cases h : c.get p = b
  · simp [h]
  · cases c with
    | Single old => simp [h, ChunkData.get_index, Function.update_noteq hj]
    | Multiple blocks => simp [h, ChunkData.get_index, Function.update_noteq hj]

/-- C9: for every `BlockPos`, with arbitrary (including negative) integer
coordinates, `BlockPos::index()` is in `[0, TOTAL_BLOCKS)`.  Consequently the
array accesses inside `ChunkData::get` / `ChunkData::set` (which index the
`TOTAL_BLOCKS`-sized array at exactly this value) are always in bounds, which
is what lets the embedding above package the index as `Fin TOTAL_BLOCKS` and
makes both operations total. -/
theorem c9_index_always_in_bounds :
    ∀ x y z : ℤ, (BlockPos.new x y z).index < TOTAL_BLOCKS :=
  fun x y z => (BlockPos.new x y z).index_lt

/-- C7: `set(p, a)` then `set(p, b)` leaves `b` at `p`; `set` returns `false`
exactly when the slot already holds the written id (leaving the chunk
unchanged) and `true` exactly when the stored value changes; writing an id
different from the fill value of a `Single` chunk promotes it to `Multiple`,
materializing the full array. -/
theorem c7_set_semantics (c : ChunkData) (p : BlockPos) (a b : Entity)
    (_hab : a ≠ b) :
    (((c.set p a).1.set p b).1.get p = b)
    ∧ (∀ (c' : ChunkData) (v : Entity), c'.get p = v → c'.set p v = (c', false))
    ∧ (∀ (c' : ChunkData) (v : Entity), (c'.set p v).2 = true ↔ c'.get p ≠ v)
    ∧ (∀ (w v : Entity), v ≠ w →
        ∃ blocks, ((ChunkData.Single w).set p v).1 = .Multiple blocks
          ∧ blocks p.indexFin = v
          ∧ ∀ j, j ≠ p.indexFin → blocks j = w) := by
  refine ⟨ChunkData.get_set_self _ p b,
    fun c' v h => ChunkData.set_noop c' p v h,
    fun c' v => ChunkData.set_snd_iff c' p v, fun w v hvw => ?_⟩
  refine ⟨Function.update (fun _ => w) p.indexFin v, ?_, ?_, ?_⟩
  · unfold ChunkData.set
    rw [if_neg]
    simp only [ChunkData.get]
    exact fun hh => hvw hh.symm
  · simp
  · intro j hj
    simp [Function.update_noteq hj]

theorem c7_set_semantics_witness :
    (3 : Entity) ≠ 4
    ∧ ((((ChunkData.fill 7).set (BlockPos.new 1 2 3) 3).1.set
          (BlockPos.new 1 2 3) 4).1.get (BlockPos.new 1 2 3) = 4
      ∧ (∀ (c' : ChunkData) (v : Entity),
          c'.get (BlockPos.new 1 2 3) = v → c'.set (BlockPos.new 1 2 3) v = (c', false))
      ∧ (∀ (c' : ChunkData) (v : Entity),
          (c'.set (BlockPos.new 1 2 3) v).2 = true ↔ c'.get (BlockPos.new 1 2 3) ≠ v)
      ∧ (∀ (w v : Entity), v ≠ w →
          ∃ blocks, ((ChunkData.Single w).set (BlockPos.new 1 2 3) v).1 = .Multiple blocks
            ∧ blocks (BlockPos.new 1 2 3).indexFin = v
            ∧ ∀ j, j ≠ (BlockPos.new 1 2 3).indexFin → blocks j = w)) :=
  ⟨by decide, c7_set_semantics (ChunkData.fill 7) (BlockPos.new 1 2 3) 3 4 (by decide)⟩

/-- C10: `set(p, b)` changes no slot other than the one at `p.index()`,
including when it promotes a `Single` chunk to `Multiple`. -/
theorem c10_set_frame (c : ChunkData) (p : BlockPos) (b : Entity)
    (j : Fin TOTAL_BLOCKS) (hj : j ≠ p.indexFin) :
    ((c.set p b).1).get_index j = c.get_index j :=
  ChunkData.get_index_set_ne c p b j hj

theorem c10_set_frame_witness :
    (⟨0, by decide⟩ : Fin TOTAL_BLOCKS) ≠ (BlockPos.new 1 2 3).indexFin
    ∧ (((ChunkData.fill 7).set (BlockPos.new 1 2 3) 5).1).get_index ⟨0, by decide⟩
        = (ChunkData.fill 7).get_index ⟨0, by decide⟩ :=
  ⟨by decide, c10_set_frame (ChunkData.fill 7) (BlockPos.new 1 2 3) 5 ⟨0, by decide⟩ (by decide)⟩

/-- C1 (counterexample): the claim "`try_convert_to_single()` returns `true`
iff every slot holds the same id, over every `ChunkData` including those in
the `Single` representation" is false: a `Single` chunk has all slots equal
yet the method returns `false`. -/
theorem c1_counterexample :
    ¬ (∀ c : ChunkData, (c.try_convert_to_single).2 = true ↔
        ∀ i j, c.get_index i = c.get_index j) := by
  intro h
  have h0 := (h (ChunkData.Single 0)).2 (fun i j => rfl)
  simp [ChunkData.try_convert_to_single] at h0

/-- C1 (amended): `try_convert_to_single()` returns `true` iff the chunk is in
the `Multiple` representation and all of its `CHUNK_SIZE^3` slots hold the
same id; on a `Single` chunk it is a no-op returning `false`. -/
theorem c1_try_convert_iff (c : ChunkData) :
    (c.try_convert_to_single).2 = true ↔
      (∃ blocks, c = .Multiple blocks) ∧ ∀ i j, c.get_index i = c.get_index j := by
  cases c with
  | Single b =>
      simp only [ChunkData.try_convert_to_single]
      constructor
      · intro h; cases h
      · rintro ⟨⟨blocks, h⟩, -⟩; cases h
  | Multiple blocks =>
      simp only [ChunkData.try_convert_to_single]
      by_cases h : ∀ i, blocks i = blocks ⟨0, by decide⟩
      · simp only [if_pos h]
        constructor
        · intro
          exact ⟨⟨blocks, rfl⟩, fun i j => by
            show blocks i = blocks j
            rw [h i, h j]⟩
        · intro; trivial
      · simp only [if_neg h]
        constructor
        · intro hfalse; cases hfalse
        · rintro ⟨-, hall⟩
          exact absurd (fun i => hall i ⟨0, by decide⟩) h

/-! ## Face directions and occlusion flags -/

/-- `FaceDirection` from `src/map/pos.rs`: the six cardinal directions. -/
inductive FaceDirection where
  | Up
  | Down
  | North
  | South
  | East
  | West
deriving DecidableEq, Repr

/-- `impl From<FaceDirection> for IVec3` from `src/map/pos.rs`. -/
def FaceDirection.toIVec : FaceDirection → ℤ × ℤ × ℤ
  | .Up => (0, 1, 0)
  | .Down => (0, -1, 0)
  | .North => (0, 0, -1)
  | .South => (0, 0, 1)
  | .East => (1, 0, 0)
  | .West => (-1, 0, 0)

/-- `FaceDirection::opposite` from `src/map/pos.rs`. -/
def FaceDirection.opposite : FaceDirection → FaceDirection
  | .Up => .Down
  | .Down => .Up
  | .North => .South
  | .South => .North
  | .East => .West
  | .West => .East

/-- `BlockPos::shift` from `src/math/pos.rs`: move `amount` units in `dir`. -/
def BlockPos.shift (p : BlockPos) (dir : FaceDirection) (amount : ℕ) : BlockPos :=
  ⟨p.x + dir.toIVec.1 * amount,
   p.y + dir.toIVec.2.1 * amount,
   p.z + dir.toIVec.2.2 * amount⟩

/-- A 6-bit cardinal-direction flag set, the common shape of the `Occludes`
and `OccludedBy` bitflags of `src/map/blocks/occlusion.rs` (the one bit per
direction is modelled as one `Bool` per direction). -/
structure FaceFlags where
  up : Bool
  down : Bool
  north : Bool
  south : Bool
  east : Bool
  west : Bool
deriving DecidableEq, Repr

/-- The `Occludes` bitflags: directions a block occludes. -/
abbrev Occludes := FaceFlags

/-- The `OccludedBy` bitflags: faces of a block hidden by neighbors. -/
abbrev OccludedBy := FaceFlags

/-- `bitflags` `empty()`. -/
def FaceFlags.empty : FaceFlags := ⟨false, false, false, false, false, false⟩

/-- `bitflags` `all()`. -/
def FaceFlags.all : FaceFlags := ⟨true, true, true, true, true, true⟩

/-- `bitflags` `contains(flag)` for a single-direction flag. -/
def FaceFlags.contains (s : FaceFlags) (d : FaceDirection) : Bool :=
  match d with
  | .Up => s.up
  | .Down => s.down
  | .North => s.north
  | .South => s.south
  | .East => s.east
  | .West => s.west

/-- `BlockDataOccludes` from `src/map/blocks/occlusion.rs`: per-slot outgoing
occlusion data for one chunk. -/
structure BlockDataOccludes where
  data : Fin TOTAL_BLOCKS → Occludes

/-- `BlockDataOccludes::get`: empty flags outside the chunk bounds. -/
def BlockDataOccludes.get (o : BlockDataOccludes) (pos : BlockPos) : Occludes :=
  match pos.index_no_wrap with
  | none => FaceFlags.empty
  | some i => o.data i

/-- `BlockDataOccludedBy` from `src/map/blocks/occlusion.rs`: per-slot
incoming occlusion data for one chunk. -/
structure BlockDataOccludedBy where
  data : Fin TOTAL_BLOCKS → OccludedBy

/-- `BlockDataOccludedBy::new`. -/
def BlockDataOccludedBy.new : BlockDataOccludedBy := ⟨fun _ => FaceFlags.empty⟩

/-- `BlockDataOccludedBy::get`: empty flags outside the chunk bounds. -/
def BlockDataOccludedBy.get (o : BlockDataOccludedBy) (pos : BlockPos) :
    OccludedBy :=
  match pos.index_no_wrap with
  | none => FaceFlags.empty
  | some i => o.data i

/-- `BlockDataOccludedBy::set`: a no-op outside the chunk bounds. -/
def BlockDataOccludedBy.set (o : BlockDataOccludedBy) (pos : BlockPos)
    (occludes : OccludedBy) : BlockDataOccludedBy :=
  match pos.index_no_wrap with
  | none => o
  | some i => ⟨Function.update o.data i occludes⟩

/-- The loop body of `BlockDataOccludedBy::from_occlusion`: the `OccludedBy`
flags computed for one position, one bit per direction, each set iff the
neighbor one unit in that direction occludes the opposite direction. -/
def occludedByAt (occlusion : BlockDataOccludes) (pos : BlockPos) : OccludedBy :=
  { up := (occlusion.get (pos.shift .Up 1)).contains .Down
    down := (occlusion.get (pos.shift .Down 1)).contains .Up
    north := (occlusion.get (pos.shift .North 1)).contains .South
    south := (occlusion.get (pos.shift .South 1)).contains .North
    east := (occlusion.get (pos.shift .East 1)).contains .West
    west := (occlusion.get (pos.shift .West 1)).contains .East }

/-- The sequence of positions yielded by `ChunkIterator::default()` from
`src/utilities/chunk_iter.rs`: all positions of the origin chunk, `x` as the
outermost and `z` as the innermost (fastest incrementing) coordinate. -/
def chunkIterList : List BlockPos :=
  (List.range CHUNK_SIZE).flatMap fun x =>
    (List.range CHUNK_SIZE).flatMap fun y =>
      (List.range CHUNK_SIZE).map fun z => BlockPos.new x y z

/-- `BlockDataOccludedBy::from_occlusion`: iterate every chunk position and
store its computed flags. -/
def BlockDataOccludedBy.from_occlusion (occlusion : BlockDataOccludes) :
    BlockDataOccludedBy :=
  chunkIterList.foldl
    (fun data pos => data.set pos (occludedByAt occlusion pos))
    BlockDataOccludedBy.new

/-! ## Occlusion lemmas -/

lemma BlockPos.in_bounds_origin_iff (p : BlockPos) :
    p.is_in_bounds (ChunkPos.new 0 0 0) ↔
      0 ≤ p.x ∧ p.x < 16 ∧ 0 ≤ p.y ∧ p.y < 16 ∧ 0 ≤ p.z ∧ p.z < 16 := by
  obtain ⟨x, y, z⟩ := p
  unfold BlockPos.is_in_bounds ChunkPos.new
  have hs : (CHUNK_SIZE : ℤ) = 16 := by decide
  rw [hs]
  dsimp only
  constructor <;> (intro h; omega)

lemma BlockPos.mem_chunkIterList (p : BlockPos)
    (h : p.is_in_bounds (ChunkPos.new 0 0 0)) : p ∈ chunkIterList := by
  rw [BlockPos.in_bounds_origin_iff] at h
  obtain ⟨x, y, z⟩ := p
  dsimp only at h
  unfold chunkIterList
  have hs : CHUNK_SIZE = 16 := by decide
  rw [hs]
  have hx : x.toNat ∈ List.range 16 := List.mem_range.mpr (by omega)
  have hy : y.toNat ∈ List.range 16 := List.mem_range.mpr (by omega)
  have hz : z.toNat ∈ List.range 16 := List.mem_range.mpr (by omega)
  have e1 : BlockPos.mk x y z = BlockPos.new ↑x.toNat ↑y.toNat ↑z.toNat := by
    unfold BlockPos.new
    simp only [BlockPos.mk.injEq]
    omega
  rw [e1]
  have m1 : BlockPos.new ↑x.toNat ↑y.toNat ↑z.toNat
      ∈ (List.range 16).map (fun c : ℕ => BlockPos.new ↑x.toNat ↑y.toNat ↑c) :=
    List.mem_map.mpr ⟨z.toNat, hz, rfl⟩
  have m2 : BlockPos.new ↑x.toNat ↑y.toNat ↑z.toNat
      ∈ (List.range 16).flatMap
          (fun b : ℕ => (List.range 16).map fun c : ℕ => BlockPos.new ↑x.toNat ↑b ↑c) :=
    List.mem_flatMap.mpr ⟨y.toNat, hy, m1⟩
  exact List.mem_flatMap.mpr ⟨x.toNat, hx, m2⟩

lemma BlockPos.index_inj (p q : BlockPos)
    (hp : p.is_in_bounds (ChunkPos.new 0 0 0))
    (hq : q.is_in_bounds (ChunkPos.new 0 0 0))
    (h : p.index = q.index) : p = q := by
  rw [BlockPos.in_bounds_origin_iff] at hp hq
  obtain ⟨px, py, pz⟩ := p
  obtain ⟨qx, qy, qz⟩ := q
  dsimp only at hp hq
  unfold BlockPos.index at h
  have hs : (CHUNK_SIZE : ℤ) = 16 := by decide
  have hsn : CHUNK_SIZE = 16 := by decide
  rw [hs, hsn] at h
  dsimp only at h
  rw [Int.emod_eq_of_lt hp.1 hp.2.1, Int.emod_eq_of_lt hp.2.2.1 hp.2.2.2.1,
      Int.emod_eq_of_lt hp.2.2.2.2.1 hp.2.2.2.2.2] at h
  rw [Int.emod_eq_of_lt hq.1 hq.2.1, Int.emod_eq_of_lt hq.2.2.1 hq.2.2.2.1,
      Int.emod_eq_of_lt hq.2.2.2.2.1 hq.2.2.2.2.2] at h
  simp only [BlockPos.mk.injEq]
  omega

lemma BlockDataOccludedBy.get_set_same (o : BlockDataOccludedBy)
    (p : BlockPos) (v : OccludedBy) (hp : p.is_in_bounds (ChunkPos.new 0 0 0)) :
    (o.set p v).get p = v := by
  unfold BlockDataOccludedBy.set BlockDataOccludedBy.get BlockPos.index_no_wrap
  simp [hp]

lemma BlockDataOccludedBy.get_set_ne (o : BlockDataOccludedBy)
    (p q : BlockPos) (v : OccludedBy)
    (hp : p.is_in_bounds (ChunkPos.new 0 0 0)) (hne : p ≠ q) :
    (o.set q v).get p = o.get p := by
  unfold BlockDataOccludedBy.set BlockDataOccludedBy.get BlockPos.index_no_wrap
  by_cases hq : q.is_in_bounds (ChunkPos.new 0 0 0)
  · have hfin : p.indexFin ≠ q.indexFin := by
      intro hfe
      exact hne (BlockPos.index_inj p q hp hq (congrArg Fin.val hfe))
    simp [hp, hq, Function.update_noteq hfin]
  · simp [hp, hq]

lemma BlockDataOccludedBy.get_fold (occlusion : BlockDataOccludes)
    (l : List BlockPos) (d : BlockDataOccludedBy) (p : BlockPos)
    (hp : p.is_in_bounds (ChunkPos.new 0 0 0)) :
    (l.foldl (fun data pos => data.set pos (occludedByAt occlusion pos)) d).get p
      = if p ∈ l then occludedByAt occlusion p else d.get p := by
  induction l generalizing d with
  | nil => simp
  | cons q l ih =>
      simp only [List.foldl_cons, ih (d.set q (occludedByAt occlusion q))]
      by_cases hmem : p ∈ l
      · simp [hmem, List.mem_cons]
      · by_cases hpq : p = q
        · subst hpq
          simp [hmem, BlockDataOccludedBy.get_set_same d p _ hp]
        · simp [hmem, hpq, BlockDataOccludedBy.get_set_ne d p q _ hp hpq]

/-- For every in-bounds position, `from_occlusion` stores exactly the flags
computed by its loop body. -/
lemma BlockDataOccludedBy.get_from_occlusion (occlusion : BlockDataOccludes)
    (p : BlockPos) (hp : p.is_in_bounds (ChunkPos.new 0 0 0)) :
    (BlockDataOccludedBy.from_occlusion occlusion).get p
      = occludedByAt occlusion p := by
  unfold BlockDataOccludedBy.from_occlusion
  rw [BlockDataOccludedBy.get_fold occlusion chunkIterList BlockDataOccludedBy.new p hp]
  simp [BlockPos.mem_chunkIterList p hp]

lemma FaceFlags.contains_empty (d : FaceDirection) :
    FaceFlags.empty.contains d = false := by
  cases d <;> rfl

lemma BlockPos.shift_south_north (A B : BlockPos)
    (h : A = B.shift .South 1) : B = A.shift .North 1 := by
  subst h
  obtain ⟨x, y, z⟩ := B
  simp only [BlockPos.shift, FaceDirection.toIVec, BlockPos.mk.injEq]
  omega

/-- C6: for chunk-internal south/north neighbors `A = B.shift(South, 1)`, the
derived `OccludedBy` data is symmetric with the `Occludes` data: `B` is
occluded from the South exactly when `A` occludes North, and `A` is occluded
from the North exactly when `B` occludes South. -/
theorem c6_occlusion_symmetry (occ : BlockDataOccludes) (A B : BlockPos)
    (hA : A.is_in_bounds (ChunkPos.new 0 0 0))
    (hB : B.is_in_bounds (ChunkPos.new 0 0 0))
    (hAB : A = B.shift .South 1) :
    (((BlockDataOccludedBy.from_occlusion occ).get B).contains .South
        = (occ.get A).contains .North)
    ∧ (((BlockDataOccludedBy.from_occlusion occ).get A).contains .North
        = (occ.get B).contains .South) := by
  have hBA : B = A.shift .North 1 := BlockPos.shift_south_north A B hAB
  constructor
  · rw [BlockDataOccludedBy.get_from_occlusion occ B hB]
    show (occ.get (B.shift .South 1)).contains .North = _
    rw [← hAB]
  · rw [BlockDataOccludedBy.get_from_occlusion occ A hA]
    show (occ.get (A.shift .North 1)).contains .South = _
    rw [← hBA]

theorem c6_occlusion_symmetry_witness :
    ((BlockPos.new 0 0 1).is_in_bounds (ChunkPos.new 0 0 0)
      ∧ (BlockPos.new 0 0 0).is_in_bounds (ChunkPos.new 0 0 0)
      ∧ BlockPos.new 0 0 1 = (BlockPos.new 0 0 0).shift .South 1)
    ∧ ((((BlockDataOccludedBy.from_occlusion ⟨fun _ => FaceFlags.all⟩).get
            (BlockPos.new 0 0 0)).contains .South
          = ((⟨fun _ => FaceFlags.all⟩ : BlockDataOccludes).get
              (BlockPos.new 0 0 1)).contains .North)
        ∧ (((BlockDataOccludedBy.from_occlusion ⟨fun _ => FaceFlags.all⟩).get
              (BlockPos.new 0 0 1)).contains .North
          = ((⟨fun _ => FaceFlags.all⟩ : BlockDataOccludes).get
              (BlockPos.new 0 0 0)).contains .South)) :=
  ⟨⟨by decide, by decide, by decide⟩,
    c6_occlusion_symmetry ⟨fun _ => FaceFlags.all⟩
      (BlockPos.new 0 0 1) (BlockPos.new 0 0 0)
      (by decide) (by decide) (by decide)⟩

/-- C8: occlusion queries outside the chunk's local bounds return the empty
flag set instead of erroring, and consequently a block at the chunk's edge
has the boundary face's `OccludedBy` bit clear (the face defaults to
visible). -/
theorem c8_boundary_defaults_visible :
    (∀ (occ : BlockDataOccludes) (occB : BlockDataOccludedBy) (p : BlockPos),
        ¬ p.is_in_bounds (ChunkPos.new 0 0 0) →
          occ.get p = FaceFlags.empty ∧ occB.get p = FaceFlags.empty)
    ∧ (∀ (occ : BlockDataOccludes) (p : BlockPos) (dir : FaceDirection),
        p.is_in_bounds (ChunkPos.new 0 0 0) →
        ¬ (p.shift dir 1).is_in_bounds (ChunkPos.new 0 0 0) →
          ((BlockDataOccludedBy.from_occlusion occ).get p).contains dir
            = false) := by
  have hoob : ∀ (occ : BlockDataOccludes) (q : BlockPos),
      ¬ q.is_in_bounds (ChunkPos.new 0 0 0) → occ.get q = FaceFlags.empty := by
    intro occ q hq
    unfold BlockDataOccludes.get BlockPos.index_no_wrap
    simp [hq]
  constructor
  · intro occ occB p hp
    refine ⟨hoob occ p hp, ?_⟩
    unfold BlockDataOccludedBy.get BlockPos.index_no_wrap
    simp [hp]
  · intro occ p dir hp hshift
    rw [BlockDataOccludedBy.get_from_occlusion occ p hp]
    cases dir <;>
      (simp only [occludedByAt, FaceFlags.contains]
       rw [hoob occ _ hshift]
       rfl)

theorem c8_boundary_defaults_visible_witness :
    (¬ (BlockPos.new (-1) 0 0).is_in_bounds (ChunkPos.new 0 0 0)
      ∧ ((⟨fun _ => FaceFlags.all⟩ : BlockDataOccludes).get
            (BlockPos.new (-1) 0 0) = FaceFlags.empty
        ∧ BlockDataOccludedBy.new.get (BlockPos.new (-1) 0 0) = FaceFlags.empty))
    ∧ ((BlockPos.new 0 0 0).is_in_bounds (ChunkPos.new 0 0 0)
      ∧ ¬ ((BlockPos.new 0 0 0).shift .West 1).is_in_bounds (ChunkPos.new 0 0 0)
      ∧ ((BlockDataOccludedBy.from_occlusion ⟨fun _ => FaceFlags.all⟩).get
            (BlockPos.new 0 0 0)).contains .West = false) :=
  ⟨⟨by decide,
      c8_boundary_defaults_visible.1 ⟨fun _ => FaceFlags.all⟩
        BlockDataOccludedBy.new (BlockPos.new (-1) 0 0) (by decide)⟩,
    ⟨by decide, by decide,
      c8_boundary_defaults_visible.2 ⟨fun _ => FaceFlags.all⟩
        (BlockPos.new 0 0 0) .West (by decide) (by decide)⟩⟩

/-! ## Remesh scheduler (src/map/remesh.rs)

The ECS state relevant to `check_remesh_later` is modelled as an association
list from chunk entity to its marker state, in query-iteration order.  Each
chunk holds at most one marker: `NeedsRemesh`, `NeedsRemeshLater { priority,
starvation }`, or neither (clean). -/

/-- The remesh marker state of one chunk: no marker, `NeedsRemeshLater` with
its `priority` and `starvation` fields, or `NeedsRemesh`. -/
inductive ChunkState where
  | clean
  | later (priority : ℤ) (starving : Bool)
  | remesh
deriving DecidableEq, Repr

/-- Whether the chunk holds the `NeedsRemesh` marker. -/
def ChunkState.isRemesh : ChunkState → Bool
  | .remesh => true
  | _ => false

/-- Whether the chunk holds the `NeedsRemeshLater` marker. -/
def ChunkState.isLater : ChunkState → Bool
  | .later _ _ => true
  | _ => false

/-- `queued_chunks.iter().sort::<&NeedsRemeshLater>().next()` from
`check_remesh_later`: the first `NeedsRemeshLater` chunk of minimal priority
(`Ord` on `NeedsRemeshLater` compares priorities only, and the sort is
stable, so ties keep iteration order: an earlier chunk is preferred unless a
strictly smaller priority appears later). -/
def findMinLater : List (Entity × ChunkState) → Option (Entity × ℤ)
  | [] => none
  | (e, st) :: rest =>
      match st with
      | .later p _ =>
          match findMinLater rest with
          | none => some (e, p)
          | some (e2, p2) => if p2 < p then some (e2, p2) else some (e, p)
      | _ => findMinLater rest

/-- `check_remesh_later` from `src/map/remesh.rs`: if no chunk currently
holds `NeedsRemesh` and some chunk holds `NeedsRemeshLater`, the first
minimal-priority queued chunk has its `NeedsRemeshLater` marker removed and
`NeedsRemesh` inserted; otherwise nothing changes. -/
def check_remesh_later (chunks : List (Entity × ChunkState)) :
    List (Entity × ChunkState) :=
  if chunks.any (fun ec => ec.2.isRemesh) then chunks
  else
    match findMinLater chunks with
    | none => chunks
    | some (e, _) =>
        chunks.map (fun ec => if ec.1 = e then (ec.1, .remesh) else ec)

lemma isRemesh_iff (st : ChunkState) : st.isRemesh = true ↔ st = .remesh := by
  cases st <;> simp [ChunkState.isRemesh]

lemma anyRemesh_iff (l : List (Entity × ChunkState)) :
    l.any (fun ec => ec.2.isRemesh) = true ↔
      ∃ e, (e, ChunkState.remesh) ∈ l := by
  rw [List.any_eq_true]
  constructor
  · rintro ⟨⟨e, st⟩, hmem, hst⟩
    rw [isRemesh_iff] at hst
    exact ⟨e, hst ▸ hmem⟩
  · rintro ⟨e, hmem⟩
    exact ⟨(e, .remesh), hmem, rfl⟩

lemma findMinLater_none (l : List (Entity × ChunkState))
    (h : findMinLater l = none) :
    ∀ e p s, (e, ChunkState.later p s) ∉ l := by
  induction l with
  | nil => simp
  | cons head rest ih =>
      obtain ⟨e0, st0⟩ := head
      cases st0 with
      | later p0 s0 =>
          exfalso
          cases hfm : findMinLater rest with
          | none => simp [findMinLater, hfm] at h
          | some ep2 =>
              obtain ⟨e2, p2⟩ := ep2
              by_cases hlt : p2 < p0 <;> simp [findMinLater, hfm, hlt] at h
      | clean =>
          intro e p s hmem
          have h' : findMinLater rest = none := by simpa [findMinLater] using h
          rcases List.mem_cons.mp hmem with heq | hmem2
          · exact absurd (congrArg Prod.snd heq) (by simp)
          · exact ih h' e p s hmem2
      | remesh =>
          intro e p s hmem
          have h' : findMinLater rest = none := by simpa [findMinLater] using h
          rcases List.mem_cons.mp hmem with heq | hmem2
          · exact absurd (congrArg Prod.snd heq) (by simp)
          · exact ih h' e p s hmem2

lemma findMinLater_split (l : List (Entity × ChunkState)) (e : Entity) (p : ℤ)
    (h : findMinLater l = some (e, p)) :
    ∃ s l1 l2, l = l1 ++ (e, ChunkState.later p s) :: l2
      ∧ (∀ e' p' s', (e', ChunkState.later p' s') ∈ l1 → p < p')
      ∧ (∀ e' p' s', (e', ChunkState.later p' s') ∈ l2 → p ≤ p') := by
  induction l generalizing e p with
  | nil => cases h
  | cons head rest ih =>
      obtain ⟨e0, st0⟩ := head
      cases st0 with
      | clean =>
          have h' : findMinLater rest = some (e, p) := by
            simpa [findMinLater] using h
          obtain ⟨s, l1, l2, heq, h1, h2⟩ := ih e p h'
          refine ⟨s, (e0, .clean) :: l1, l2, by rw [heq, List.cons_append], ?_, h2⟩
          intro e' p' s' hmem
          rcases List.mem_cons.mp hmem with heq' | hmem2
          · exact absurd (congrArg Prod.snd heq') (by simp)
          · exact h1 e' p' s' hmem2
      | remesh =>
          have h' : findMinLater rest = some (e, p) := by
            simpa [findMinLater] using h
          obtain ⟨s, l1, l2, heq, h1, h2⟩ := ih e p h'
          refine ⟨s, (e0, .remesh) :: l1, l2, by rw [heq, List.cons_append], ?_, h2⟩
          intro e' p' s' hmem
          rcases List.mem_cons.mp hmem with heq' | hmem2
          · exact absurd (congrArg Prod.snd heq') (by simp)
          · exact h1 e' p' s' hmem2
      | later p0 s0 =>
          cases hfm : findMinLater rest with
          | none =>
              simp only [findMinLater, hfm, Option.some.injEq, Prod.mk.injEq] at h
              obtain ⟨he, hp⟩ := h
              subst he; subst hp
              refine ⟨s0, [], rest, rfl, by simp, ?_⟩
              intro e' p' s' hmem
              exact absurd hmem (findMinLater_none rest hfm e' p' s')
          | some ep2 =>
              obtain ⟨e2, p2⟩ := ep2
              by_cases hlt : p2 < p0
              · simp only [findMinLater, hfm, if_pos hlt, Option.some.injEq,
                  Prod.mk.injEq] at h
                obtain ⟨he, hp⟩ := h
                subst he; subst hp
                obtain ⟨s, l1, l2, heq, h1, h2⟩ := ih e2 p2 hfm
                refine ⟨s, (e0, .later p0 s0) :: l1, l2,
                  by rw [heq, List.cons_append], ?_, h2⟩
                intro e' p' s' hmem
                rcases List.mem_cons.mp hmem with heq' | hmem2
                · have hsnd := congrArg Prod.snd heq'
                  simp only at hsnd
                  injection hsnd with hp' hs'
                  rw [hp']
                  exact hlt
                · exact h1 e' p' s' hmem2
              · simp only [findMinLater, hfm, if_neg hlt, Option.some.injEq,
                  Prod.mk.injEq] at h
                obtain ⟨he, hp⟩ := h
                subst he; subst hp
                obtain ⟨s2, r1, r2, heq2, hh1, hh2⟩ := ih e2 p2 hfm
                refine ⟨s0, [], rest, rfl, by simp, ?_⟩
                intro e' p' s' hmem
                rw [heq2] at hmem
                rcases List.mem_append.mp hmem with hm | hm
                · have := hh1 e' p' s' hm
                  omega
                · rcases List.mem_cons.mp hm with heq' | hm2
                  · have hsnd := congrArg Prod.snd heq'
                    simp only at hsnd
                    injection hsnd with hp' hs'
                    omega
                  · have := hh2 e' p' s' hm2
                    omega

lemma findMinLater_mem (l : List (Entity × ChunkState)) (e : Entity) (p : ℤ)
    (h : findMinLater l = some (e, p)) :
    ∃ s, (e, ChunkState.later p s) ∈ l := by
  obtain ⟨s, l1, l2, heq, -, -⟩ := findMinLater_split l e p h
  exact ⟨s, by rw [heq]; exact List.mem_append_right l1 (List.mem_cons_self _ _)⟩

lemma findMinLater_min (l : List (Entity × ChunkState)) (e : Entity) (p : ℤ)
    (h : findMinLater l = some (e, p)) :
    ∀ e' p' s', (e', ChunkState.later p' s') ∈ l → p ≤ p' := by
  obtain ⟨s, l1, l2, heq, h1, h2⟩ := findMinLater_split l e p h
  intro e' p' s' hmem
  rw [heq] at hmem
  rcases List.mem_append.mp hmem with hm | hm
  · exact le_of_lt (h1 e' p' s' hm)
  · rcases List.mem_cons.mp hm with heq' | hm2
    · have hsnd := congrArg Prod.snd heq'
      simp only at hsnd
      injection hsnd with hp' hs'
      omega
    · exact h2 e' p' s' hm2

lemma nodup_keys_eq (l : List (Entity × ChunkState))
    (hnodup : (l.map Prod.fst).Nodup) (e : Entity) (a b : ChunkState)
    (ha : (e, a) ∈ l) (hb : (e, b) ∈ l) : a = b := by
  induction l with
  | nil => cases ha
  | cons head rest ih =>
      obtain ⟨e0, st0⟩ := head
      simp only [List.map_cons, List.nodup_cons] at hnodup
      obtain ⟨hnotin, hnd⟩ := hnodup
      rcases List.mem_cons.mp ha with haeq | ham <;>
        rcases List.mem_cons.mp hb with hbeq | hbm
      · rw [Prod.mk.injEq] at haeq hbeq
        rw [haeq.2, hbeq.2]
      · rw [Prod.mk.injEq] at haeq
        exact absurd (haeq.1 ▸ List.mem_map_of_mem Prod.fst hbm) hnotin
      · rw [Prod.mk.injEq] at hbeq
        exact absurd (hbeq.1 ▸ List.mem_map_of_mem Prod.fst ham) hnotin
      · exact ih hnd ham hbm

/-- C5: in a scheduler tick, (a) at most one chunk transitions from
`NeedsRemeshLater` to `NeedsRemesh`; (b) such a promotion occurs iff no chunk
currently holds `NeedsRemesh` and at least one holds `NeedsRemeshLater`;
(c) the promoted chunk has the lowest priority among all `NeedsRemeshLater`
chunks, and on ties it is the earliest in iteration order (every queued chunk
strictly before it has strictly larger priority); (d) all other chunks keep
their state.  Entity ids in an ECS world are distinct, hence the `Nodup`
hypothesis. -/
theorem c5_promotion (chunks : List (Entity × ChunkState))
    (hnodup : (chunks.map Prod.fst).Nodup) :
    (∀ e1 p1 s1 e2 p2 s2,
        (e1, ChunkState.later p1 s1) ∈ chunks →
        (e1, ChunkState.remesh) ∈ check_remesh_later chunks →
        (e2, ChunkState.later p2 s2) ∈ chunks →
        (e2, ChunkState.remesh) ∈ check_remesh_later chunks → e1 = e2)
    ∧ ((∃ e p s, (e, ChunkState.later p s) ∈ chunks
          ∧ (e, ChunkState.remesh) ∈ check_remesh_later chunks)
        ↔ (∀ e, (e, ChunkState.remesh) ∉ chunks)
          ∧ ∃ e p s, (e, ChunkState.later p s) ∈ chunks)
    ∧ (∀ e1 p1 s1,
        (e1, ChunkState.later p1 s1) ∈ chunks →
        (e1, ChunkState.remesh) ∈ check_remesh_later chunks →
        (∀ e' p' s', (e', ChunkState.later p' s') ∈ chunks → p1 ≤ p')
        ∧ ∃ l1 l2, chunks = l1 ++ (e1, ChunkState.later p1 s1) :: l2
            ∧ ∀ e' p' s', (e', ChunkState.later p' s') ∈ l1 → p1 < p')
    ∧ (∀ e st, (e, st) ∈ chunks →
        (e, ChunkState.remesh) ∉ check_remesh_later chunks →
        (e, st) ∈ check_remesh_later chunks) := by
  by_cases hrem : chunks.any (fun ec => ec.2.isRemesh) = true
  · have hres : check_remesh_later chunks = chunks := by
      unfold check_remesh_later
      rw [if_pos hrem]
    obtain ⟨er, hex⟩ := (anyRemesh_iff chunks).mp hrem
    rw [hres]
    refine ⟨?_, ?_, ?_, ?_⟩
    · intro e1 p1 s1 e2 p2 s2 h1 h2 h3 h4
      exact absurd (nodup_keys_eq chunks hnodup e1 _ _ h1 h2) (by simp)
    · constructor
      · rintro ⟨e, p, s, h1, h2⟩
        exact absurd (nodup_keys_eq chunks hnodup e _ _ h1 h2) (by simp)
      · rintro ⟨hno, -⟩
        exact absurd hex (hno er)
    · intro e1 p1 s1 h1 h2
      exact absurd (nodup_keys_eq chunks hnodup e1 _ _ h1 h2) (by simp)
    · intro e st hmem _
      exact hmem
  · have hnorem : ∀ e, (e, ChunkState.remesh) ∉ chunks := by
      intro e hmem
      exact hrem ((anyRemesh_iff chunks).mpr ⟨e, hmem⟩)
    cases hfm : findMinLater chunks with
    | none =>
        have hres : check_remesh_later chunks = chunks := by
          unfold check_remesh_later
          rw [if_neg hrem, hfm]
        have hnolater := findMinLater_none chunks hfm
        rw [hres]
        refine ⟨?_, ?_, ?_, ?_⟩
        · intro e1 p1 s1 e2 p2 s2 h1 h2 h3 h4
          exact absurd h1 (hnolater e1 p1 s1)
        · constructor
          · rintro ⟨e, p, s, h1, h2⟩
            exact absurd h1 (hnolater e p s)
          · rintro ⟨-, e, p, s, h1⟩
            exact absurd h1 (hnolater e p s)
        · intro e1 p1 s1 h1 h2
          exact absurd h1 (hnolater e1 p1 s1)
        · intro e st hmem _
          exact hmem
    | some ep =>
        obtain ⟨em, pm⟩ := ep
        have hres : check_remesh_later chunks
            = chunks.map (fun ec => if ec.1 = em then (ec.1, .remesh) else ec) := by
          unfold check_remesh_later
          rw [if_neg hrem, hfm]
        obtain ⟨sm, hmemm⟩ := findMinLater_mem chunks em pm hfm
        have promo_mem : (em, ChunkState.remesh) ∈ check_remesh_later chunks := by
          rw [hres]
          have := List.mem_map_of_mem
            (fun ec : Entity × ChunkState =>
              if ec.1 = em then (ec.1, ChunkState.remesh) else ec) hmemm
          simpa using this
        have promoted_only : ∀ e1,
            (e1, ChunkState.remesh) ∈ check_remesh_later chunks → e1 = em := by
          intro e1 h
          rw [hres, List.mem_map] at h
          obtain ⟨⟨a, st⟩, hmem, hfa⟩ := h
          by_cases ha : a = em
          · simp only [ha, if_pos rfl] at hfa
            exact (congrArg Prod.fst hfa).symm
          · simp only [if_neg ha] at hfa
            have ha1 : a = e1 := congrArg Prod.fst hfa
            have hst : st = ChunkState.remesh := congrArg Prod.snd hfa
            subst ha1
            subst hst
            exact absurd hmem (hnorem a)
        refine ⟨?_, ?_, ?_, ?_⟩
        · intro e1 p1 s1 e2 p2 s2 h1 h2 h3 h4
          rw [promoted_only e1 h2, promoted_only e2 h4]
        · exact iff_of_true ⟨em, pm, sm, hmemm, promo_mem⟩
            ⟨hnorem, em, pm, sm, hmemm⟩
        · intro e1 p1 s1 h1 h2
          have he1 : e1 = em := promoted_only e1 h2
          subst he1
          have hsteq : ChunkState.later p1 s1 = ChunkState.later pm sm :=
            nodup_keys_eq chunks hnodup e1 _ _ h1 hmemm
          injection hsteq with hp1 hs1
          subst hp1
          subst hs1
          constructor
          · exact fun e' p' s' h' => findMinLater_min chunks e1 p1 hfm e' p' s' h'
          · obtain ⟨s, l1, l2, heq, hl1, -⟩ := findMinLater_split chunks e1 p1 hfm
            have hsmem : (e1, ChunkState.later p1 s) ∈ chunks := by
              rw [heq]
              exact List.mem_append_right l1 (List.mem_cons_self _ _)
            have hseq : ChunkState.later p1 s = ChunkState.later p1 s1 :=
              nodup_keys_eq chunks hnodup e1 _ _ hsmem h1
            injection hseq with hp hs
            subst hs
            exact ⟨l1, l2, heq, hl1⟩
        · intro e st hmem hnot
          have hne : e ≠ em := by
            intro he
            subst he
            exact hnot promo_mem
          rw [hres]
          have := List.mem_map_of_mem
            (fun ec : Entity × ChunkState =>
              if ec.1 = em then (ec.1, ChunkState.remesh) else ec) hmem
          simpa [hne] using this

/-- A concrete scheduler state used to witness `c5_promotion`: one clean
chunk and two queued chunks with different priorities. -/
def schedExample : List (Entity × ChunkState) :=
  [(0, .clean), (1, .later 5 false), (2, .later 3 true)]

theorem c5_promotion_witness :
    ((schedExample.map Prod.fst).Nodup)
    ∧ ((∀ e1 p1 s1 e2 p2 s2,
          (e1, ChunkState.later p1 s1) ∈ schedExample →
          (e1, ChunkState.remesh) ∈ check_remesh_later schedExample →
          (e2, ChunkState.later p2 s2) ∈ schedExample →
          (e2, ChunkState.remesh) ∈ check_remesh_later schedExample → e1 = e2)
      ∧ ((∃ e p s, (e, ChunkState.later p s) ∈ schedExample
            ∧ (e, ChunkState.remesh) ∈ check_remesh_later schedExample)
          ↔ (∀ e, (e, ChunkState.remesh) ∉ schedExample)
            ∧ ∃ e p s, (e, ChunkState.later p s) ∈ schedExample)
      ∧ (∀ e1 p1 s1,
          (e1, ChunkState.later p1 s1) ∈ schedExample →
          (e1, ChunkState.remesh) ∈ check_remesh_later schedExample →
          (∀ e' p' s', (e', ChunkState.later p' s') ∈ schedExample → p1 ≤ p')
          ∧ ∃ l1 l2, schedExample = l1 ++ (e1, ChunkState.later p1 s1) :: l2
              ∧ ∀ e' p' s', (e', ChunkState.later p' s') ∈ l1 → p1 < p')
      ∧ (∀ e st, (e, st) ∈ schedExample →
          (e, ChunkState.remesh) ∉ check_remesh_later schedExample →
          (e, st) ∈ check_remesh_later schedExample)) :=
  ⟨by decide, c5_promotion schedExample (by decide)⟩

/-! ## Mesh buffer finalization (src/utilities/meshbuf.rs) -/

/-- `MeshBuf` from `src/utilities/meshbuf.rs`: the renderer-agnostic
accumulation buffer.  Vertex attributes are modelled over `ℚ`; the `u32`
index values are modelled as `ℕ` (the claims exercise only the index-width
selection and the `as u16` cast, modelled as reduction mod `2^16`). -/
structure MeshBuf where
  positions : List (ℚ × ℚ × ℚ)
  uvs : List (ℚ × ℚ)
  normals : List (ℚ × ℚ × ℚ)
  layers : List ℕ
  indices : List ℕ

/-- bevy's `Indices`: an index buffer in 16-bit or 32-bit width. -/
inductive Indices where
  | U16 (l : List ℕ)
  | U32 (l : List ℕ)
deriving DecidableEq, Repr

/-- The part of the bevy `Mesh` built by `impl From<MeshBuf> for Mesh` that
the claims reference: the copied vertex attributes, the optional tile-index
attribute (inserted only when `layers` is non-empty), and the index buffer. -/
structure Mesh where
  positions : List (ℚ × ℚ × ℚ)
  normals : List (ℚ × ℚ × ℚ)
  uvs : List (ℚ × ℚ)
  layers : Option (List ℕ)
  indices : Indices

/-- `impl From<MeshBuf> for Mesh` from `src/utilities/meshbuf.rs`: the index
buffer is `U32` when `indices.len() > u16::MAX as usize` (that is, more than
`65535` stored indices) and otherwise `U16`, each value cast `as u16`. -/
def Mesh.ofMeshBuf (value : MeshBuf) : Mesh :=
  { positions := value.positions
    normals := value.normals
    uvs := value.uvs
    layers := if value.layers.isEmpty then none else some value.layers
    indices :=
      if value.indices.length > 65535 then Indices.U32 value.indices
      else Indices.U16 (value.indices.map (· % 65536)) }

/-- The `MeshBuf` refuting C4: one stored index referring to vertex `69999`
of `70000` vertices. -/
def meshBufBig : MeshBuf :=
  { positions := List.replicate 70000 (0, 0, 0)
    uvs := []
    normals := []
    layers := []
    indices := [69999] }

/-- C4 (counterexample): the claim "the index buffer is 16-bit exactly when
the vertex count fits in 16 bits, with the stored index values preserved in
either case" is false: a buffer with `70000` vertices but a single stored
index is emitted as 16-bit, and the value `69999` is truncated to `4463`. -/
theorem c4_counterexample :
    ¬ (∀ mb : MeshBuf,
        ((∃ l, (Mesh.ofMeshBuf mb).indices = .U16 l) ↔ mb.positions.length < 65536)
        ∧ (∀ l, (Mesh.ofMeshBuf mb).indices = .U16 l → l = mb.indices)
        ∧ (∀ l, (Mesh.ofMeshBuf mb).indices = .U32 l → l = mb.indices)) := by
  intro h
  obtain ⟨-, hpres16, -⟩ := h meshBufBig
  have hind : (Mesh.ofMeshBuf meshBufBig).indices = .U16 [4463] := by decide
  have := hpres16 [4463] hind
  have hbad : ([4463] : List ℕ) = [69999] := this
  simp at hbad

/-- C4 (amended): the index buffer is emitted in 16-bit width exactly when
the number of stored indices is at most `u16::MAX = 65535` (the vertex count
plays no role), and in 32-bit width otherwise; 32-bit values are preserved
exactly, while 16-bit values are truncated to their low 16 bits — hence
preserved whenever every stored index fits in 16 bits. -/
theorem c4_index_width (mb : MeshBuf) :
    ((∃ l, (Mesh.ofMeshBuf mb).indices = .U16 l) ↔ mb.indices.length ≤ 65535)
    ∧ (∀ l, (Mesh.ofMeshBuf mb).indices = .U16 l → l = mb.indices.map (· % 65536))
    ∧ (∀ l, (Mesh.ofMeshBuf mb).indices = .U32 l → l = mb.indices)
    ∧ ((∀ i ∈ mb.indices, i < 65536) →
        ∀ l, (Mesh.ofMeshBuf mb).indices = .U16 l → l = mb.indices) := by
  unfold Mesh.ofMeshBuf
  by_cases hlen : mb.indices.length > 65535
  · simp only [if_pos hlen]
    refine ⟨?_, ?_, ?_, ?_⟩
    · constructor
      · rintro ⟨l, hl⟩
        cases hl
      · intro hle
        omega
    · intro l hl
      cases hl
    · intro l hl
      injection hl with hl'
      exact hl'.symm
    · intro _ l hl
      cases hl
  · simp only [if_neg hlen]
    refine ⟨?_, ?_, ?_, ?_⟩
    · exact iff_of_true ⟨mb.indices.map (· % 65536), rfl⟩ (by omega)
    · intro l hl
      injection hl with hl'
      exact hl'.symm
    · intro l hl
      cases hl
    · intro hsmall l hl
      injection hl with hl'
      rw [← hl']
      have : mb.indices.map (· % 65536) = mb.indices.map id := by
        apply List.map_congr_left
        intro a ha
        exact Nat.mod_eq_of_lt (hsmall a ha)
      rw [this, List.map_id]

/-- A small `MeshBuf` used to witness `c4_index_width`. -/
def meshBufSmall : MeshBuf :=
  { positions := [(0, 0, 0), (1, 0, 0), (0, 1, 0)]
    uvs := []
    normals := []
    layers := []
    indices := [0, 1, 2] }

theorem c4_index_width_witness :
    ((Mesh.ofMeshBuf meshBufSmall).indices = Indices.U16 [0, 1, 2])
    ∧ (∀ i ∈ meshBufSmall.indices, i < 65536)
    ∧ [0, 1, 2] = meshBufSmall.indices :=
  ⟨by decide, by decide,
    (c4_index_width meshBufSmall).2.2.2 (by decide) [0, 1, 2] (by decide)⟩

/-! ## Voxel raycast DDA (src/utilities/raycast/voxel_iter.rs)

The iterator state is `f32`-typed in the source.  It is modelled exactly over
`ℚ` extended with `⊤` (`ExtQ`), since the only non-finite `f32` values the
algorithm produces are the `+∞` results of dividing a positive number by
zero; `f32::MAX` (the default distance bound, replaced by every caller) is
likewise modelled as `⊤`. -/

/-- Extended rationals: the model of the iterator's `f32` values. -/
abbrev ExtQ := WithTop ℚ

/-- A 3-vector of rationals, the model of `Vec3`. -/
structure Vec3Q where
  x : ℚ
  y : ℚ
  z : ℚ
deriving DecidableEq, Repr

/-- A 3-vector of extended rationals, the model of the `f32` `Vec3` fields
that can hold `+∞`. -/
structure Vec3E where
  x : ExtQ
  y : ExtQ
  z : ExtQ

/-- A 3-vector of integers, the model of `IVec3`. -/
structure IVec3 where
  x : ℤ
  y : ℤ
  z : ℤ
deriving DecidableEq, Repr

/-- `f32` division with a non-negative numerator: `a / 0.0 = +∞` (modelled as
`⊤`), exact rational division otherwise. -/
def qdiv (a b : ℚ) : ExtQ :=
  if b = 0 then ⊤ else ((a / b : ℚ) : ExtQ)

/-- `f32::signum`, as used on the ray direction: `1` for non-negative values
(including `+0.0`, the only zero `ℚ` can represent), `-1` for negative. -/
def rsign (q : ℚ) : ℤ :=
  if q < 0 then -1 else 1

/-- The non-negative-`ds` branch of `intbound`: `g = (s % 1.0 + 1.0) % 1.0`
is the fractional part of `s`, and the result is `(1 - g) / ds` (`+∞` when
`ds = 0`, since `1 - g > 0`). -/
def intboundNonneg (s ds : ℚ) : ExtQ :=
  qdiv (1 - Int.fract s) ds

/-- `intbound` from `src/utilities/raycast/voxel_iter.rs`: the smallest
positive `t` with `s + t * ds` an integer; negative `ds` recurses on the
negated arguments. -/
def intbound (s ds : ℚ) : ExtQ :=
  if ds < 0 then intboundNonneg (-s) (-ds) else intboundNonneg s ds

/-- `vec_intbound` from `src/utilities/raycast/voxel_iter.rs`. -/
def vec_intbound (s ds : Vec3Q) : Vec3E :=
  ⟨intbound s.x ds.x, intbound s.y ds.y, intbound s.z ds.z⟩

/-- Modelled from the spec: `BlockPos::from_vec3` (not present under `src/`)
returns the coarse cell containing a point — the componentwise floor, so the
first emitted position is the ray's origin cell. -/
def BlockPos.from_vec3 (v : Vec3Q) : BlockPos :=
  ⟨⌊v.x⌋, ⌊v.y⌋, ⌊v.z⌋⟩

/-- `impl TryFrom<IVec3> for FaceDirection` from `src/map/pos.rs`. -/
def FaceDirection.tryFromIVec : IVec3 → Option FaceDirection
  | ⟨0, 1, 0⟩ => some .Up
  | ⟨0, -1, 0⟩ => some .Down
  | ⟨0, 0, -1⟩ => some .North
  | ⟨0, 0, 1⟩ => some .South
  | ⟨1, 0, 0⟩ => some .East
  | ⟨-1, 0, 0⟩ => some .West
  | _ => none

/-- The `try_into().unwrap()` on the step-derived face vector.  The argument
is always one of the six unit vectors (the step components are `±1`), so the
default is unreachable. -/
def unwrapFace (v : IVec3) : FaceDirection :=
  (FaceDirection.tryFromIVec v).getD .Up

/-- Modelled from the spec: the two-argument
`BlockPos::is_in_bounds(min_block, max_block)` used by the iterator (not
present under `src/`).  `none` models the default unbounded region
(`i32::MIN .. i32::MAX` per axis); a caller-supplied region bounds every
axis. -/
def BlockPos.in_region (b : BlockPos) : Option (BlockPos × BlockPos) → Prop
  | none => True
  | some (mn, mx) =>
      mn.x ≤ b.x ∧ b.x < mx.x ∧ mn.y ≤ b.y ∧ b.y < mx.y
        ∧ mn.z ≤ b.z ∧ b.z < mx.z

instance (b : BlockPos) (r : Option (BlockPos × BlockPos)) :
    Decidable (b.in_region r) := by
  unfold BlockPos.in_region
  cases r with
  | none => infer_instance
  | some mm => cases mm; infer_instance

/-- `VoxelIterator` from `src/utilities/raycast/voxel_iter.rs`.  The
`min_block`/`max_block` pair is folded into the optional `region`. -/
structure VoxelIterator where
  dir : Vec3Q
  block : BlockPos
  step : IVec3
  t_max : Vec3E
  t_delta : Vec3E
  region : Option (BlockPos × BlockPos)
  face : Option FaceDirection
  max_distance : ExtQ

/-- `VoxelIterator::new`: the `dir` argument models the normalized `Dir3`. -/
def VoxelIterator.new (point : Vec3Q) (dir : Vec3Q) : VoxelIterator :=
  { dir := dir
    block := BlockPos.from_vec3 point
    step := ⟨rsign dir.x, rsign dir.y, rsign dir.z⟩
    t_max := vec_intbound point dir
    t_delta := ⟨qdiv (rsign dir.x : ℤ) dir.x, qdiv (rsign dir.y : ℤ) dir.y,
      qdiv (rsign dir.z : ℤ) dir.z⟩
    region := none
    face := none
    max_distance := ⊤ }

/-- `VoxelIterator::within_region`. -/
def VoxelIterator.within_region (it : VoxelIterator) (min max : BlockPos) :
    VoxelIterator :=
  { it with region := some (min, max) }

/-- `VoxelIterator::with_max_distance`: divides the requested distance by
the norm of `dir` (`Rat.sqrt` is exact on the perfect squares that arise
from a unit direction). -/
def VoxelIterator.with_max_distance (it : VoxelIterator) (max_distance : ℚ) :
    VoxelIterator :=
  { it with
      max_distance :=
        qdiv max_distance
          (Rat.sqrt (it.dir.x * it.dir.x + it.dir.y * it.dir.y
            + it.dir.z * it.dir.z)) }

/-- `Iterator::next` for `VoxelIterator`: emits the current cell and entry
face, then advances along the axis with the smallest accumulated `t_max`,
flagging termination (sentinel `-1`) once the crossed boundary exceeds the
distance bound.  The `&mut self` becomes the returned successor state. -/
def VoxelIterator.next (it : VoxelIterator) :
    Option ((BlockPos × Option FaceDirection) × VoxelIterator) :=
  if it.max_distance < (0 : ExtQ) then none
  else if ¬ it.block.in_region it.region then none
  else
    let stepped :=
      if it.t_max.x < it.t_max.y then
        if it.t_max.x < it.t_max.z then
          { it with
              max_distance :=
                if it.t_max.x > it.max_distance then ((-1 : ℚ) : ExtQ)
                else it.max_distance
              block := ⟨it.block.x + it.step.x, it.block.y, it.block.z⟩
              t_max := { it.t_max with x := it.t_max.x + it.t_delta.x }
              face := some (unwrapFace ⟨-it.step.x, 0, 0⟩) }
        else
          { it with
              max_distance :=
                if it.t_max.z > it.max_distance then ((-1 : ℚ) : ExtQ)
                else it.max_distance
              block := ⟨it.block.x, it.block.y, it.block.z + it.step.z⟩
              t_max := { it.t_max with z := it.t_max.z + it.t_delta.z }
              face := some (unwrapFace ⟨0, 0, -it.step.z⟩) }
      else
        if it.t_max.y < it.t_max.z then
          { it with
              max_distance :=
                if it.t_max.y > it.max_distance then ((-1 : ℚ) : ExtQ)
                else it.max_distance
              block := ⟨it.block.x, it.block.y + it.step.y, it.block.z⟩
              t_max := { it.t_max with y := it.t_max.y + it.t_delta.y }
              face := some (unwrapFace ⟨0, -it.step.y, 0⟩) }
        else
          { it with
              max_distance :=
                if it.t_max.z > it.max_distance then ((-1 : ℚ) : ExtQ)
                else it.max_distance
              block := ⟨it.block.x, it.block.y, it.block.z + it.step.z⟩
              t_max := { it.t_max with z := it.t_max.z + it.t_delta.z }
              face := some (unwrapFace ⟨0, 0, -it.step.z⟩) }
    some ((it.block, it.face), stepped)

/-- The first `n` elements the iterator yields (fuel-based embedding of the
unbounded `Iterator` protocol). -/
def VoxelIterator.take : ℕ → VoxelIterator → List (BlockPos × Option FaceDirection)
  | 0, _ => []
  | n + 1, it =>
      match it.next with
      | none => []
      | some (cell, it') => cell :: VoxelIterator.take n it'

/-! ## C3: the DDA along pure +X from an integer-aligned origin -/

/-- The iterator state reached after emitting `k` cells of a pure-+X cast
from the integer origin `(x0, y0, z0)` with maximum distance `d ≥ 0`. -/
def pureXState (x0 y0 z0 : ℤ) (d : ℚ) (k : ℕ) : VoxelIterator :=
  { dir := ⟨1, 0, 0⟩
    block := ⟨x0 + k, y0, z0⟩
    step := ⟨1, 1, 1⟩
    t_max := ⟨(((k : ℚ) + 1 : ℚ) : ExtQ), ⊤, ⊤⟩
    t_delta := ⟨((1 : ℚ) : ExtQ), ⊤, ⊤⟩
    region := none
    face := if k = 0 then none else some .West
    max_distance := if (k : ℤ) ≤ ⌊d⌋ then ((d : ℚ) : ExtQ) else ((-1 : ℚ) : ExtQ) }

lemma pureX_init (x0 y0 z0 : ℤ) (d : ℚ) (hd : 0 ≤ d) :
    (VoxelIterator.new ⟨(x0 : ℚ), (y0 : ℚ), (z0 : ℚ)⟩ ⟨1, 0, 0⟩).with_max_distance d
      = pureXState x0 y0 z0 d 0 := by
  have h0 : (0 : ℤ) ≤ ⌊d⌋ := Int.floor_nonneg.mpr hd
  have hsqrt : Rat.sqrt ((1 : ℚ) * 1 + 0 * 0 + 0 * 0) = 1 := by norm_num
  unfold VoxelIterator.new VoxelIterator.with_max_distance pureXState
    BlockPos.from_vec3 vec_intbound intbound intboundNonneg qdiv rsign
  dsimp only
  rw [hsqrt, if_pos (by omega : ((0 : ℕ) : ℤ) ≤ ⌊d⌋)]
  norm_num [Int.fract_intCast, Int.floor_intCast]

lemma pureX_next (x0 y0 z0 : ℤ) (d : ℚ) (hd : 0 ≤ d) (k : ℕ)
    (hk : (k : ℤ) ≤ ⌊d⌋) :
    (pureXState x0 y0 z0 d k).next
      = some ((BlockPos.mk (x0 + k) y0 z0, if k = 0 then none else some .West),
          pureXState x0 y0 z0 d (k + 1)) := by
  have hdk : ((((k : ℚ) + 1 : ℚ)) : ExtQ) < ⊤ := WithTop.coe_lt_top _
  have hnneg : ¬ (((d : ℚ) : ExtQ) < (0 : ExtQ)) := by exact_mod_cast not_lt.mpr hd
  have hblock : x0 + (k : ℤ) + 1 = x0 + ((k + 1 : ℕ) : ℤ) := by push_cast; ring
  have htmaxq : ((k : ℚ) + 1) + 1 = ((k + 1 : ℕ) : ℚ) + 1 := by push_cast; ring
  have htmax : ((((k : ℚ) + 1 : ℚ)) : ExtQ) + (((1 : ℚ)) : ExtQ)
      = ((((k + 1 : ℕ) : ℚ) + 1 : ℚ) : ExtQ) := by
    rw [← WithTop.coe_add, htmaxq]
  have hface : unwrapFace ⟨-1, 0, 0⟩ = FaceDirection.West := rfl
  unfold VoxelIterator.next pureXState
  dsimp only
  rw [if_pos hk, if_neg hnneg]
  rw [if_neg (by simp [BlockPos.in_region] : ¬ ¬ (BlockPos.in_region ⟨x0 + (k : ℤ), y0, z0⟩ none))]
  rw [if_pos hdk, if_pos hdk]
  rw [if_neg (by omega : ¬ (k + 1 = 0))]
  rw [hblock, htmax, hface]
  by_cases hend : (k : ℤ) + 1 ≤ ⌊d⌋
  · have hguard : ¬ (((((k : ℚ) + 1 : ℚ)) : ExtQ) > ((d : ℚ) : ExtQ)) := by
      have hle : ((k : ℚ) + 1) ≤ d := by
        have h1 : ((k : ℚ) + 1) ≤ (⌊d⌋ : ℚ) := by exact_mod_cast hend
        linarith [Int.floor_le d]
      exact_mod_cast not_lt.mpr hle
    rw [if_neg hguard, if_pos (by omega : ((k + 1 : ℕ) : ℤ) ≤ ⌊d⌋)]
  · have hguard : ((((k : ℚ) + 1 : ℚ)) : ExtQ) > ((d : ℚ) : ExtQ) := by
      have hlt : d < (k : ℚ) + 1 := by
        have h1 : (⌊d⌋ : ℚ) ≤ (k : ℚ) := by exact_mod_cast (by omega : ⌊d⌋ ≤ (k : ℤ))
        linarith [Int.lt_floor_add_one d]
      exact_mod_cast hlt
    rw [if_pos hguard, if_neg (by omega : ¬ ((k + 1 : ℕ) : ℤ) ≤ ⌊d⌋)]

lemma pureX_next_none (x0 y0 z0 : ℤ) (d : ℚ) (k : ℕ)
    (hk : ¬ (k : ℤ) ≤ ⌊d⌋) :
    (pureXState x0 y0 z0 d k).next = none := by
  unfold VoxelIterator.next pureXState
  dsimp only
  rw [if_neg hk]
  rw [if_pos (by exact_mod_cast (by norm_num : (-1 : ℚ) < 0) :
    (((-1 : ℚ)) : ExtQ) < (0 : ExtQ))]

lemma pureX_take (x0 y0 z0 : ℤ) (d : ℚ) (hd : 0 ≤ d) (n k : ℕ) :
    VoxelIterator.take n (pureXState x0 y0 z0 d k)
      = (List.range (min n (⌊d⌋.toNat + 1 - k))).map
          (fun j => (BlockPos.mk (x0 + ((k + j : ℕ) : ℤ)) y0 z0,
            if k + j = 0 then none else some FaceDirection.West)) := by
  have h0 : (0 : ℤ) ≤ ⌊d⌋ := Int.floor_nonneg.mpr hd
  induction n generalizing k with
  | zero => simp [VoxelIterator.take]
  | succ n ih =>
      by_cases hk : (k : ℤ) ≤ ⌊d⌋
      · have hstep := pureX_next x0 y0 z0 d hd k hk
        simp only [VoxelIterator.take, hstep]
        rw [ih (k + 1)]
        have hmin : min (n + 1) (⌊d⌋.toNat + 1 - k)
            = min n (⌊d⌋.toNat + 1 - (k + 1)) + 1 := by omega
        rw [hmin, List.range_succ_eq_map, List.map_cons, List.map_map]
        congr 1
        apply List.map_congr_left
        intro j hj
        have hj1 : k + 1 + j = k + (j + 1) := by omega
        simp only [Function.comp_apply, Nat.succ_eq_add_one, hj1]
      · have hstop := pureX_next_none x0 y0 z0 d k hk
        have hzero : ⌊d⌋.toNat + 1 - k = 0 := by omega
        simp [VoxelIterator.take, hstop, hzero]

/-- C3: a cast along pure +X from the integer-aligned origin `(x0, y0, z0)`
with maximum distance `d ≥ 0` emits exactly `⌊d⌋ + 1` cells (whenever enough
of the iterator is consumed; `n` is the number of `next` calls), the `k`-th
emitted cell being `(x0 + k, y0, z0)`, with entry face `None` for the first
cell and `West` for every later one. -/
theorem c3_pure_x_dda (x0 y0 z0 : ℤ) (d : ℚ) (hd : 0 ≤ d) (n : ℕ) :
    VoxelIterator.take n
        ((VoxelIterator.new ⟨(x0 : ℚ), (y0 : ℚ), (z0 : ℚ)⟩ ⟨1, 0, 0⟩).with_max_distance d)
      = (List.range (min n (⌊d⌋.toNat + 1))).map
          (fun k : ℕ => (BlockPos.mk (x0 + (k : ℤ)) y0 z0,
            if k = 0 then none else some FaceDirection.West)) := by
  rw [pureX_init x0 y0 z0 d hd, pureX_take x0 y0 z0 d hd n 0]
  simp

theorem c3_pure_x_dda_witness :
    (0 : ℚ) ≤ 3
    ∧ VoxelIterator.take 10
        ((VoxelIterator.new ⟨((2 : ℤ) : ℚ), (((-1) : ℤ) : ℚ), ((5 : ℤ) : ℚ)⟩
            ⟨1, 0, 0⟩).with_max_distance 3)
      = (List.range (min 10 (⌊(3 : ℚ)⌋.toNat + 1))).map
          (fun k : ℕ => (BlockPos.mk (2 + (k : ℤ)) (-1) 5,
            if k = 0 then none else some FaceDirection.West)) :=
  ⟨by decide, c3_pure_x_dda 2 (-1) 5 3 (by decide) 10⟩

/-! ## Voxel raycast (src/utilities/raycast/block.rs)

The ECS queries of the `VoxelRaycast` system parameter are modelled as
functions: `worldsQ` resolves a world entity to its `VoxelWorld`, `chunksQ`
a chunk entity to its `ChunkData`, and `blocksQ` a block entity to its
`BlockModel` view. -/

/-- `impl From<BlockPos> for ChunkPos` from `src/math/pos.rs`: arithmetic
right shift of each coordinate by `CHUNK_BITS` (`ℤ` shift right is floor
division by `2^CHUNK_BITS`, matching the `i32` arithmetic shift). -/
def ChunkPos.ofBlockPos (pos : BlockPos) : ChunkPos :=
  ⟨pos.x >>> CHUNK_BITS, pos.y >>> CHUNK_BITS, pos.z >>> CHUNK_BITS⟩

/-- `VoxelWorld` from `src/map/world.rs`: the chunk-coordinate → chunk-entity
map (the `HashMap` is modelled as a partial function). -/
structure VoxelWorld where
  chunks : ChunkPos → Option Entity

/-- `VoxelWorld::get_chunk`. -/
def VoxelWorld.get_chunk (w : VoxelWorld) (pos : ChunkPos) : Option Entity :=
  w.chunks pos

/-- bevy's `Aabb3d` over `ℚ`. -/
structure Aabb3d where
  min : Vec3Q
  max : Vec3Q
deriving DecidableEq, Repr

/-- Modelled from the spec: the raycast-relevant view of `BlockModel`
(`BlockModel::get_bounds` is not present under `src/`).  `bounds` is the
block's exact render bounding box; `none` models both a block with no model
part and a model with an empty bounding box — either way the coarse cell is
skipped. -/
structure BlockModelQ where
  bounds : Option Aabb3d

/-- bevy's `RayCast3d` over `ℚ`: origin, normalized direction, and maximum
distance. -/
structure RayCast3d where
  origin : Vec3Q
  dir : Vec3Q
  max : ℚ

/-- One axis of the slab test: intersect the accumulated `t` interval with
the axis' constraint.  A zero direction component constrains nothing when
the origin lies inside the slab (inclusively) and rules the hit out
otherwise. -/
def slabAxis (acc : Option (ℚ × ℚ)) (o dr mn mx : ℚ) : Option (ℚ × ℚ) :=
  match acc with
  | none => none
  | some (lo, hi) =>
      if dr = 0 then
        if mn ≤ o ∧ o ≤ mx then some (lo, hi) else none
      else
        some (max lo (min ((mn - o) / dr) ((mx - o) / dr)),
          min hi (max ((mn - o) / dr) ((mx - o) / dr)))

/-- Modelled from the spec: bevy's `RayCast3d::aabb_intersection_at`
(external library code) — the precise slab ray/box test.  The entry time is
clamped to `0` from below, the exit time to the ray's maximum distance from
above, and the hit distance is the clamped entry time when the interval is
non-empty. -/
def RayCast3d.aabb_intersection_at (ray : RayCast3d) (aabb : Aabb3d) :
    Option ℚ :=
  match slabAxis (slabAxis (slabAxis (some (0, ray.max))
      ray.origin.x ray.dir.x aabb.min.x aabb.max.x)
      ray.origin.y ray.dir.y aabb.min.y aabb.max.y)
      ray.origin.z ray.dir.z aabb.min.z aabb.max.z with
  | none => none
  | some (lo, hi) => if lo ≤ hi then some lo else none

/-- `VoxelRaycastHit` from `src/utilities/raycast/block.rs`. -/
structure VoxelRaycastHit where
  world : Entity
  block : BlockPos
  face : FaceDirection
  distance : ℚ
  hit_pos : Vec3Q
deriving DecidableEq, Repr

/-- The per-cell body of the `raycast` loop, given the already-resolved
chunk data: read the block id, resolve its model and bounds, offset the
bounds by the block's world position, and run the exact ray/box test.
`none` means the cell is skipped and traversal continues. -/
def cellTest (world_id : Entity) (blocksQ : Entity → Option BlockModelQ)
    (ray : RayCast3d) (chunk : ChunkData)
    (cell : BlockPos × Option FaceDirection) : Option VoxelRaycastHit :=
  match blocksQ (chunk.get cell.1) with
  | none => none
  | some model =>
      match model.bounds with
      | none => none
      | some bounds =>
          let moved : Aabb3d :=
            ⟨⟨bounds.min.x + cell.1.x, bounds.min.y + cell.1.y,
                bounds.min.z + cell.1.z⟩,
              ⟨bounds.max.x + cell.1.x, bounds.max.y + cell.1.y,
                bounds.max.z + cell.1.z⟩⟩
          match ray.aabb_intersection_at moved with
          | none => none
          | some block_dist =>
              some { world := world_id
                     block := cell.1
                     face := (cell.2).getD .Up
                     distance := block_dist
                     hit_pos := ⟨ray.origin.x + ray.dir.x * block_dist,
                       ray.origin.y + ray.dir.y * block_dist,
                       ray.origin.z + ray.dir.z * block_dist⟩ }

/-- The per-cell test with the chunk resolved directly (no cache): the
cache-free specification the loop below is proved equivalent to. -/
def blockRayHit (world_id : Entity) (w : VoxelWorld)
    (chunksQ : Entity → Option ChunkData) (blocksQ : Entity → Option BlockModelQ)
    (ray : RayCast3d) (cell : BlockPos × Option FaceDirection) :
    Option VoxelRaycastHit :=
  match (w.get_chunk (ChunkPos.ofBlockPos cell.1)).bind chunksQ with
  | none => none
  | some chunk => cellTest world_id blocksQ ray chunk cell

/-- The loop of `VoxelRaycast::raycast`, over the list of coarse cells, with
the single-entry chunk cache (`chunk_pos`, `chunk_buf`) threaded through:
the chunk is re-resolved only when the cell's chunk coordinate differs from
the cached one. -/
def raycastLoop (world_id : Entity) (w : VoxelWorld)
    (chunksQ : Entity → Option ChunkData) (blocksQ : Entity → Option BlockModelQ)
    (ray : RayCast3d) :
    List (BlockPos × Option FaceDirection) → Option ChunkPos →
      Option ChunkData → Option VoxelRaycastHit
  | [], _, _ => none
  | cell :: rest, chunk_pos, chunk_buf =>
      let cp := ChunkPos.ofBlockPos cell.1
      let st :=
        if some cp = chunk_pos then (chunk_pos, chunk_buf)
        else (some cp, (w.get_chunk cp).bind chunksQ)
      match st.2 with
      | none => raycastLoop world_id w chunksQ blocksQ ray rest st.1 none
      | some chunk =>
          match cellTest world_id blocksQ ray chunk cell with
          | some hit => some hit
          | none => raycastLoop world_id w chunksQ blocksQ ray rest st.1 st.2

/-- The coarse cells of a ray: the voxel iterator seeded from the ray's
origin and direction, bounded by its maximum distance, consumed with `fuel`
calls to `next`. -/
def rayCells (ray : RayCast3d) (fuel : ℕ) :
    List (BlockPos × Option FaceDirection) :=
  VoxelIterator.take fuel
    ((VoxelIterator.new ray.origin ray.dir).with_max_distance ray.max)

/-- `VoxelRaycast::raycast` from `src/utilities/raycast/block.rs`: resolve
the world, then walk the coarse cells — skipping the first, the ray's origin
cell, via `.skip(1)` — with the chunk cache initially empty. -/
def VoxelRaycast.raycast (worldsQ : Entity → Option VoxelWorld)
    (chunksQ : Entity → Option ChunkData) (blocksQ : Entity → Option BlockModelQ)
    (world_id : Entity) (ray : RayCast3d) (fuel : ℕ) : Option VoxelRaycastHit :=
  match worldsQ world_id with
  | none => none
  | some w =>
      raycastLoop world_id w chunksQ blocksQ ray
        ((rayCells ray fuel).drop 1) none none

/-- The single-entry chunk cache is transparent: the raycast loop computes
exactly the first cell, in traversal order, whose cache-free per-cell test
succeeds. -/
lemma raycastLoop_eq_findSome (world_id : Entity) (w : VoxelWorld)
    (chunksQ : Entity → Option ChunkData) (blocksQ : Entity → Option BlockModelQ)
    (ray : RayCast3d) :
    ∀ (cells : List (BlockPos × Option FaceDirection)) (cpos : Option ChunkPos)
      (cbuf : Option ChunkData),
      (∀ cp, cpos = some cp → cbuf = (w.get_chunk cp).bind chunksQ) →
      raycastLoop world_id w chunksQ blocksQ ray cells cpos cbuf
        = cells.findSome? (blockRayHit world_id w chunksQ blocksQ ray) := by
  intro cells
  induction cells with
  | nil =>
      intro cpos cbuf hinv
      rfl
  | cons cell rest ih =>
      intro cpos cbuf hinv
      rw [List.findSome?_cons]
      by_cases hc : some (ChunkPos.ofBlockPos cell.1) = cpos
      · have hbuf : cbuf
            = (w.get_chunk (ChunkPos.ofBlockPos cell.1)).bind chunksQ := by
          obtain ⟨cp0, rfl⟩ : ∃ cp0, cpos = some cp0 := by
            cases cpos with
            | none => cases hc
            | some cp0 => exact ⟨cp0, rfl⟩
          have : ChunkPos.ofBlockPos cell.1 = cp0 := by
            injection hc
          rw [this]
          exact hinv cp0 rfl
        simp only [raycastLoop, if_pos hc]
        rw [show blockRayHit world_id w chunksQ blocksQ ray cell
            = (match (w.get_chunk (ChunkPos.ofBlockPos cell.1)).bind chunksQ with
              | none => none
              | some chunk => cellTest world_id blocksQ ray chunk cell) from rfl]
        rw [← hbuf]
        cases hbv : cbuf with
        | none =>
            dsimp only
            exact ih cpos none (fun cp hcp => by rw [← hinv cp hcp, hbv])
        | some chunk =>
            dsimp only
            cases ht : cellTest world_id blocksQ ray chunk cell with
            | some hit => rfl
            | none =>
                exact ih cpos (some chunk)
                  (fun cp hcp => by rw [← hinv cp hcp, hbv])
      · simp only [raycastLoop, if_neg hc]
        rw [show blockRayHit world_id w chunksQ blocksQ ray cell
            = (match (w.get_chunk (ChunkPos.ofBlockPos cell.1)).bind chunksQ with
              | none => none
              | some chunk => cellTest world_id blocksQ ray chunk cell) from rfl]
        cases hbv : (w.get_chunk (ChunkPos.ofBlockPos cell.1)).bind chunksQ with
        | none =>
            dsimp only
            exact ih (some (ChunkPos.ofBlockPos cell.1)) none (fun cp hcp => by
              injection hcp with hcp'
              rw [← hcp', hbv])
        | some chunk =>
            dsimp only
            cases ht : cellTest world_id blocksQ ray chunk cell with
            | some hit => rfl
            | none =>
                exact ih (some (ChunkPos.ofBlockPos cell.1)) (some chunk)
                  (fun cp hcp => by
                    injection hcp with hcp'
                    rw [← hcp', hbv])

/-- C2 (amended): `VoxelRaycast::raycast` returns `Some` exactly when some
coarse cell emitted by the voxel traversal within the distance limit —
*excluding the ray's origin cell, which `.skip(1)` drops untested* — passes
the exact ray/box test against the block's model bounds offset by the
block's world position; the hit returned is computed from the first such
cell in traversal order (block position, entered face, intersection
distance, and world-space hit point), and cells whose chunk is not loaded or
whose block has no model or no bounding box are skipped.  Formally: the
raycast equals the first success of the cache-free per-cell test
`blockRayHit` over the emitted cells minus the first. -/
theorem c2_raycast_first_hit (worldsQ : Entity → Option VoxelWorld)
    (chunksQ : Entity → Option ChunkData) (blocksQ : Entity → Option BlockModelQ)
    (world_id : Entity) (ray : RayCast3d) (fuel : ℕ) :
    VoxelRaycast.raycast worldsQ chunksQ blocksQ world_id ray fuel
      = match worldsQ world_id with
        | none => none
        | some w =>
            ((rayCells ray fuel).drop 1).findSome?
              (blockRayHit world_id w chunksQ blocksQ ray) := by
  unfold VoxelRaycast.raycast
  cases worldsQ world_id with
  | none => rfl
  | some w =>
      exact raycastLoop_eq_findSome world_id w chunksQ blocksQ ray
        ((rayCells ray fuel).drop 1) none none
        (fun cp hcp => Option.noConfusion hcp)

/-! ### C2 counterexample: the origin cell is never tested -/

/-- The counterexample ray: integer origin, pure +X, maximum distance 3. -/
def rayCEx : RayCast3d := ⟨⟨0, 0, 0⟩, ⟨1, 0, 0⟩, 3⟩

/-- The counterexample world: a single chunk at the origin, entity `100`. -/
def worldCEx : VoxelWorld :=
  ⟨fun cp => if cp = ⟨0, 0, 0⟩ then some 100 else none⟩

/-- World query: entity `0` is the world. -/
def worldsQCEx : Entity → Option VoxelWorld :=
  fun e => if e = 0 then some worldCEx else none

/-- Chunk query: entity `100` is the chunk, filled with block `7`. -/
def chunksQCEx : Entity → Option ChunkData :=
  fun e => if e = 100 then some (ChunkData.fill 7) else none

/-- Block-model query: block `7` has a unit-cube bounding box. -/
def blocksQCEx : Entity → Option BlockModelQ :=
  fun e => if e = 7 then some ⟨some ⟨⟨0, 0, 0⟩, ⟨1, 1, 1⟩⟩⟩ else none

lemma rayCellsCEx : rayCells rayCEx 6
    = [(⟨0, 0, 0⟩, none), (⟨1, 0, 0⟩, some .West),
        (⟨2, 0, 0⟩, some .West), (⟨3, 0, 0⟩, some .West)] := by
  show VoxelIterator.take 6
      ((VoxelIterator.new ⟨0, 0, 0⟩ ⟨1, 0, 0⟩).with_max_distance 3) = _
  have h00 : (⟨0, 0, 0⟩ : Vec3Q)
      = ⟨((0 : ℤ) : ℚ), ((0 : ℤ) : ℚ), ((0 : ℤ) : ℚ)⟩ := by norm_num
  rw [h00, pureX_init 0 0 0 3 (by norm_num), pureX_take 0 0 0 3 (by norm_num) 6 0]
  have hfloor : (⌊(3 : ℚ)⌋ : ℤ) = 3 := by norm_num
  rw [hfloor]
  have hmin : (6 : ℕ) ⊓ (Int.toNat 3 + 1 - 0) = 4 := by decide
  rw [hmin]
  norm_num [List.range_succ]

lemma blockRayHitCEx1 :
    blockRayHit 0 worldCEx chunksQCEx blocksQCEx rayCEx (⟨1, 0, 0⟩, some .West)
      = some ⟨0, ⟨1, 0, 0⟩, .West, 1, ⟨1, 0, 0⟩⟩ := by
  have hof : ChunkPos.ofBlockPos ⟨1, 0, 0⟩ = ⟨0, 0, 0⟩ := by decide
  unfold blockRayHit cellTest VoxelWorld.get_chunk worldCEx chunksQCEx blocksQCEx
    rayCEx RayCast3d.aabb_intersection_at slabAxis ChunkData.get ChunkData.fill
  rw [hof]
  norm_num [min_def, max_def]

lemma blockRayHitCEx0 :
    blockRayHit 0 worldCEx chunksQCEx blocksQCEx rayCEx (⟨0, 0, 0⟩, none)
      = some ⟨0, ⟨0, 0, 0⟩, .Up, 0, ⟨0, 0, 0⟩⟩ := by
  have hof : ChunkPos.ofBlockPos ⟨0, 0, 0⟩ = ⟨0, 0, 0⟩ := by decide
  unfold blockRayHit cellTest VoxelWorld.get_chunk worldCEx chunksQCEx blocksQCEx
    rayCEx RayCast3d.aabb_intersection_at slabAxis ChunkData.get ChunkData.fill
  rw [hof]
  norm_num [min_def, max_def]

/-- C2 (counterexample): the claim as stated — "the hit comes from the first
coarse cell *including the ray's own origin cell* that passes the exact box
test" — is false.  In a world where the ray starts inside a block whose box
contains the origin, the origin cell passes the exact test (at distance 0),
but `raycast` skips it (`.skip(1)`) and returns the hit of the *next* cell
`(1, 0, 0)` instead. -/
theorem c2_counterexample :
    ¬ (∀ (worldsQ : Entity → Option VoxelWorld)
        (chunksQ : Entity → Option ChunkData)
        (blocksQ : Entity → Option BlockModelQ)
        (world_id : Entity) (ray : RayCast3d) (fuel : ℕ),
        VoxelRaycast.raycast worldsQ chunksQ blocksQ world_id ray fuel
          = match worldsQ world_id with
            | none => none
            | some w =>
                (rayCells ray fuel).findSome?
                  (blockRayHit world_id w chunksQ blocksQ ray)) := by
  intro hP
  have h := hP worldsQCEx chunksQCEx blocksQCEx 0 rayCEx 6
  have hw : worldsQCEx 0 = some worldCEx := rfl
  rw [hw] at h
  dsimp only at h
  have hrhs : (rayCells rayCEx 6).findSome?
      (blockRayHit 0 worldCEx chunksQCEx blocksQCEx rayCEx)
        = some ⟨0, ⟨0, 0, 0⟩, .Up, 0, ⟨0, 0, 0⟩⟩ := by
    rw [rayCellsCEx, List.findSome?_cons, blockRayHitCEx0]
  have hlhs : VoxelRaycast.raycast worldsQCEx chunksQCEx blocksQCEx 0 rayCEx 6
      = some ⟨0, ⟨1, 0, 0⟩, .West, 1, ⟨1, 0, 0⟩⟩ := by
    unfold VoxelRaycast.raycast
    rw [hw]
    dsimp only
    rw [raycastLoop_eq_findSome 0 worldCEx chunksQCEx blocksQCEx rayCEx
      ((rayCells rayCEx 6).drop 1) none none (fun cp hcp => Option.noConfusion hcp)]
    rw [rayCellsCEx]
    rw [show (([(⟨0, 0, 0⟩, none), (⟨1, 0, 0⟩, some .West), (⟨2, 0, 0⟩, some .West),
        (⟨3, 0, 0⟩, some .West)] : List (BlockPos × Option FaceDirection)).drop 1)
      = [(⟨1, 0, 0⟩, some .West), (⟨2, 0, 0⟩, some .West), (⟨3, 0, 0⟩, some .West)]
      from rfl]
    rw [List.findSome?_cons, blockRayHitCEx1]
  rw [hlhs, hrhs] at h
  have hblock := congrArg (fun o => Option.map VoxelRaycastHit.block o) h
  simp only [Option.map_some] at hblock
  injection hblock with hblock'
  have hx := congrArg BlockPos.x hblock'
  simp only at hx
  exact absurd hx (by decide)
